import Mathlib

/-!
# gql-psql-name-mapping-gen: the tag extractor and the mapping generator

A shallow embedding of `main.go` (functions `processFile` and `main`) together
with the parts of the Go standard library the two functions call:
`strings.Trim`, `strings.Split`, `reflect.StructTag.Get`, `strconv.Unquote`,
`unicode.ToLower`, the `string(rune)` conversion, `ast.Inspect` and the
execution of the `text/template` the program renders.

Go strings are byte sequences; a byte is a natural number below 256.
-/

namespace NameMapping

set_option maxRecDepth 20000

/-! ## Strings -/

/-- A Go string: its bytes. -/
abbrev GoString := List Nat

/-- Go `utf8.AppendRune` and the conversion `string(r)`: the UTF-8 encoding of
the rune `r`; a surrogate or a value above U+10FFFF encodes as U+FFFD. -/
def EncodeRune (r : Nat) : GoString :=
  if r ≤ 0x7F then [r]
  else if r ≤ 0x7FF then [0xC0 + r / 64, 0x80 + r % 64]
  else if 0x10FFFF < r ∨ (0xD800 ≤ r ∧ r ≤ 0xDFFF) then [0xEF, 0xBF, 0xBD]
  else if r ≤ 0xFFFF then [0xE0 + r / 4096, 0x80 + r / 64 % 64, 0x80 + r % 64]
  else [0xF0 + r / 262144, 0x80 + r / 4096 % 64, 0x80 + r / 64 % 64, 0x80 + r % 64]

/-- The bytes (UTF-8) of a piece of source text. -/
def bytes (s : String) : GoString :=
  s.toList.flatMap (fun c => EncodeRune c.toNat)

/-- Go `unicode.ToLower` on the runes U+0000..U+00FF, which are all the values
`rune(b)` takes for a byte `b`: the ASCII capitals and the Latin-1 capitals
U+00C0..U+00D6 and U+00D8..U+00DE move up by 32, every other rune of the range
is its own lower case. -/
def ToLower (r : Nat) : Nat :=
  if 0x41 ≤ r ∧ r ≤ 0x5A then r + 32
  else if 0xC0 ≤ r ∧ r ≤ 0xD6 then r + 32
  else if 0xD8 ≤ r ∧ r ≤ 0xDE then r + 32
  else r

/-- Go `strings.Trim(s, cutset)` for a cutset of the single byte `c`: all
leading and all trailing occurrences of `c` are removed. -/
def Trim (s : GoString) (c : Nat) : GoString :=
  ((s.dropWhile (fun b => b == c)).reverse.dropWhile (fun b => b == c)).reverse

/-- Go `strings.Split(s, sep)` for a separator of the single byte `sep`. -/
def Split (sep : Nat) : GoString → List GoString
  | [] => [[]]
  | c :: cs =>
    if c = sep then [] :: Split sep cs
    else
      match Split sep cs with
      | [] => [[c]]
      | h :: t => (c :: h) :: t

/-! ## UTF-8 decoding and `strconv.Unquote` -/

/-- The rune U+FFFD, Go `utf8.RuneError`. -/
def RuneError : Nat := 0xFFFD

/-- Continuation byte test of `utf8.DecodeRuneInString` (`locb..hicb`). -/
def isCont (b : Nat) : Bool := decide (0x80 ≤ b ∧ b ≤ 0xBF)

/-- Go `utf8.DecodeRuneInString`: the first rune of `s` and its width in
bytes; `(RuneError, 0)` on the empty string and `(RuneError, 1)` on an invalid
or incomplete encoding. The tables `first` and `acceptRanges` are unfolded
into the ranges of the leading byte. -/
def DecodeRune (s : GoString) : Nat × Nat :=
  match s with
  | [] => (RuneError, 0)
  | s0 :: t =>
    if s0 < 0x80 then (s0, 1)
    else if s0 < 0xC2 then (RuneError, 1)
    else if s0 ≤ 0xDF then
      match t with
      | s1 :: _ => if isCont s1 then ((s0 % 32) * 64 + s1 % 64, 2) else (RuneError, 1)
      | _ => (RuneError, 1)
    else if s0 ≤ 0xEF then
      match t with
      | s1 :: s2 :: _ =>
        let lo := if s0 = 0xE0 then 0xA0 else 0x80
        let hi := if s0 = 0xED then 0x9F else 0xBF
        if s1 < lo ∨ hi < s1 then (RuneError, 1)
        else if isCont s2 then ((s0 % 16) * 4096 + (s1 % 64) * 64 + s2 % 64, 3)
        else (RuneError, 1)
      | _ => (RuneError, 1)
    else if s0 ≤ 0xF4 then
      match t with
      | s1 :: s2 :: s3 :: _ =>
        let lo := if s0 = 0xF0 then 0x90 else 0x80
        let hi := if s0 = 0xF4 then 0x8F else 0xBF
        if s1 < lo ∨ hi < s1 then (RuneError, 1)
        else if isCont s2 ∧ isCont s3 then
          ((s0 % 8) * 262144 + (s1 % 64) * 4096 + (s2 % 64) * 64 + s3 % 64, 4)
        else (RuneError, 1)
      | _ => (RuneError, 1)
    else (RuneError, 1)

/-- One round per byte of `utf8.ValidString`: every position decodes to a rune
without reporting an encoding error. -/
def validLoop : Nat → GoString → Bool
  | 0, s => s.isEmpty
  | fuel + 1, s =>
    match s with
    | [] => true
    | _ :: _ =>
      let d := DecodeRune s
      if d.1 = RuneError ∧ d.2 = 1 then false else validLoop fuel (s.drop d.2)

/-- Go `utf8.ValidString`. -/
def ValidString (s : GoString) : Bool := validLoop s.length s

/-- Go `strconv.unhex`: the value of a hexadecimal digit. -/
def unhex (b : Nat) : Option Nat :=
  if 48 ≤ b ∧ b ≤ 57 then some (b - 48)
  else if 97 ≤ b ∧ b ≤ 102 then some (b - 97 + 10)
  else if 65 ≤ b ∧ b ≤ 70 then some (b - 65 + 10)
  else none

/-- The digit loop of `strconv.UnquoteChar` for the escapes x, u and U: the
value of the hexadecimal digits of `ds`, taken in the 32-bit rune type. -/
def hexValue : List Nat → Nat → Option Nat
  | [], v => some v
  | d :: ds, v =>
    match unhex d with
    | none => none
    | some x => hexValue ds ((v * 16 + x) % 2 ^ 32)

/-- Go `utf8.ValidRune` on the 32-bit pattern of a rune: a value with the sign
bit set is a negative rune and invalid. -/
def ValidRune (v : Nat) : Bool :=
  decide (v < 0xD800 ∨ (0xDFFF < v ∧ v ≤ 0x10FFFF))

/-- The one-letter cases of the switch of `strconv.UnquoteChar` with the
double quote as `quote`: the escapes a, b, f, n, r, t, v, the backslash and
the double quote. -/
def escapeValue (e : Nat) : Option Nat :=
  if e = 97 then some 7
  else if e = 98 then some 8
  else if e = 102 then some 12
  else if e = 110 then some 10
  else if e = 114 then some 13
  else if e = 116 then some 9
  else if e = 118 then some 11
  else if e = 92 then some 92
  else if e = 34 then some 34
  else none

/-- The case x, u, U of the switch of `strconv.UnquoteChar`: `e` is the letter
and `u` the text after it. -/
def hexEscape (e : Nat) (u : GoString) : Option (Nat × Bool × GoString) :=
  let n := if e = 120 then 2 else if e = 117 then 4 else 8
  if u.length < n then none
  else
    match hexValue (u.take n) 0 with
    | none => none
    | some v =>
      if e = 120 then some (v, false, u.drop n)
      else if ValidRune v then some (v, true, u.drop n)
      else none

/-- The case 0..7 of the switch of `strconv.UnquoteChar`: three octal digits,
of which `e` is the first and `u` the text after it. -/
def octalEscape (e : Nat) (u : GoString) : Option (Nat × Bool × GoString) :=
  match u with
  | d1 :: d2 :: w =>
    if 48 ≤ d1 ∧ d1 ≤ 55 ∧ 48 ≤ d2 ∧ d2 ≤ 55 then
      if 255 < ((e - 48) * 8 + (d1 - 48)) * 8 + (d2 - 48) then none
      else some (((e - 48) * 8 + (d1 - 48)) * 8 + (d2 - 48), false, w)
    else none
  | _ => none

/-- Go `strconv.UnquoteChar(s, quote)` for `quote` the double quote: the first
character or escape sequence of `s` as `(value, multibyte, tail)`, `none` for
a syntax error. -/
def UnquoteChar (s : GoString) : Option (Nat × Bool × GoString) :=
  match s with
  | [] => none
  | c :: t =>
    if c = 34 then none
    else if 0x80 ≤ c then some ((DecodeRune s).1, true, s.drop (DecodeRune s).2)
    else if c ≠ 92 then some (c, false, t)
    else
      match t with
      | [] => none
      | e :: u =>
        if e = 120 ∨ e = 117 ∨ e = 85 then hexEscape e u
        else if 48 ≤ e ∧ e ≤ 55 then octalEscape e u
        else
          match escapeValue e with
          | some v => some (v, false, u)
          | none => none

/-- The escape loop of `strconv.unquote` for a double-quoted string, entered
after the opening quote: the unquoted bytes and what follows the closing
quote. Every round consumes at least one byte, so `fuel` of the length of the
input plus one is never used up. -/
def unquoteLoop : Nat → GoString → GoString → Option (GoString × GoString)
  | 0, _, _ => none
  | fuel + 1, s, buf =>
    match s with
    | [] => none
    | c :: t =>
      if c = 34 then some (buf, t)
      else
        match UnquoteChar s with
        | none => none
        | some (r, multibyte, tail) =>
          if c = 10 then none
          else if r < 0x80 ∨ multibyte = false then unquoteLoop fuel tail (buf ++ [r % 256])
          else unquoteLoop fuel tail (buf ++ EncodeRune r)

/-- Go `strconv.Unquote` on a double-quoted string, the only form
`StructTag.Lookup` hands to it (any other first byte gives `none` here): the
string the literal denotes, `none` for a syntax error. `pre` is the text up to
the first double quote after the opening one; when it has no backslash and no
line feed and is valid UTF-8 it is the result, provided the literal ends
there; in every other case the escape loop runs over the whole text. -/
def Unquote (s : GoString) : Option GoString :=
  match s with
  | [] => none
  | q :: body =>
    if q ≠ 34 then none
    else
      let pre := body.takeWhile (fun b => b != 34)
      let post := body.dropWhile (fun b => b != 34)
      match post with
      | [] => none
      | _ :: rem =>
        if ¬ (92 ∈ pre) ∧ ¬ (10 ∈ pre) ∧ ValidString pre = true then
          if rem = [] then some pre else none
        else
          match unquoteLoop (body.length + 1) body [] with
          | some (out, []) => some out
          | _ => none

/-! ## `reflect.StructTag` -/

/-- The loop "scan to colon" of `StructTag.Lookup`: the bytes of a key are
above the space and are no colon, no double quote and no DEL. -/
def isNameByte (b : Nat) : Bool := decide (32 < b ∧ b ≠ 58 ∧ b ≠ 34 ∧ b ≠ 127)

/-- The loop "scan quoted string" of `StructTag.Lookup`, entered after the
opening quote: the bytes up to and including the closing quote, and the rest
of the tag. A backslash skips the byte that follows it; `none` when the index
runs past the end of the tag. -/
def scanQuoted : GoString → Option (GoString × GoString)
  | [] => none
  | c :: rest =>
    if c = 34 then some ([c], rest)
    else if c = 92 then
      match rest with
      | [] => none
      | d :: rest2 =>
        match scanQuoted rest2 with
        | none => none
        | some (q, r) => some (c :: d :: q, r)
    else
      match scanQuoted rest with
      | none => none
      | some (q, r) => some (c :: q, r)

/-- The outer loop of `StructTag.Lookup(key)`, one round per `key:"value"`
pair. Every round consumes at least one byte of the tag, so `fuel` of the
length of the tag plus one is never used up. -/
def lookupLoop (key : GoString) : Nat → GoString → Option GoString
  | 0, _ => none
  | fuel + 1, tag =>
    let tag1 := tag.dropWhile (fun b => b == 32)
    let name := tag1.takeWhile isNameByte
    match tag1.dropWhile isNameByte with
    | 58 :: 34 :: rest =>
      if name = [] then none
      else
        match scanQuoted rest with
        | none => none
        | some (q, tag2) =>
          if key = name then Unquote (34 :: q)
          else lookupLoop key fuel tag2
    | _ => none

/-- Go `reflect.StructTag.Lookup`. -/
def StructTag.Lookup (tag key : GoString) : Option GoString :=
  lookupLoop key (tag.length + 1) tag

/-- Go `reflect.StructTag.Get`: the value of `key`, the empty string when the
tag has no such key or is malformed. -/
def StructTag.Get (tag key : GoString) : GoString :=
  (StructTag.Lookup tag key).getD []

/-! ## The syntax tree -/

/-- Go `ast.Ident`. The parser never yields an identifier with an empty name,
so `Name` is held as its first byte `Name[0]` and the rest `Name[1:]`. -/
structure Ident where
  first : Nat
  rest : GoString
deriving DecidableEq, Repr

/-- The field `Name` of an identifier. -/
def Ident.Name (i : Ident) : GoString := i.first :: i.rest

/-- Go `ast.Field`: the identifiers it names (none for an embedded field), its
type and the source text of its tag literal, quotes included (`Tag.Value`),
`none` when the field has no tag. -/
structure FieldOf (α : Type) where
  Names : List Ident
  Typ : α
  Tag : Option GoString

/-- Go `ast.Node`, as far as `processFile` tells nodes apart: a type
specification, a struct type with its field list, and every other kind of node
(file, declaration, statement, expression, other type) with its children in
the order `ast.Walk` visits them. -/
inductive Node where
  | TypeSpec (Name : Ident) (TypeParams : List (FieldOf Node)) (Typ : Node)
  | StructType (Fields : List (FieldOf Node))
  | Other (children : List Node)

/-- A field of the syntax tree. -/
abbrev Field := FieldOf Node

/-- The string "json". -/
def jsonKey : GoString := [106, 115, 111, 110]

/-! ## `processFile` -/

/-- The caller's `map[string]string`: the entries in the order they were
added. The program reads it with the two-value index expression and writes
only keys that are absent. -/
abbrev Mapping := List (GoString × GoString)

/-- Go `m[k] = v`. -/
def Mapping.set (m : Mapping) (k v : GoString) : Mapping :=
  if (m.lookup k).isSome then m.map (fun e => if e.1 = k then (k, v) else e)
  else m ++ [(k, v)]

/-- Line 49 of main.go: the first BYTE of the name is taken as a rune, lowered
and converted to a string, and the bytes `Name[1:]` are appended. -/
def convertedKey (fieldName : Ident) : GoString :=
  EncodeRune (ToLower fieldName.first) ++ fieldName.rest

/-- Lines 47-53: the loop over `field.Names`. -/
def addNames (jsonTag : GoString) : List Ident → Mapping → Mapping
  | [], allMappings => allMappings
  | fieldName :: names, allMappings =>
    if (allMappings.lookup (convertedKey fieldName)).isSome then
      addNames jsonTag names allMappings
    else
      addNames jsonTag names (Mapping.set allMappings (convertedKey fieldName) jsonTag)

/-- Lines 41-42: the json value the program reads from a tag literal. -/
def jsonTagOf (tagValue : GoString) : GoString :=
  StructTag.Get (Trim tagValue 96) jsonKey

/-- Lines 37-53: the body of the loop over the fields. -/
def processField (field : Field) (allMappings : Mapping) : Mapping :=
  match field.Tag with
  | none => allMappings
  | some tagValue =>
    if jsonTagOf tagValue = [] then allMappings
    else addNames (jsonTagOf tagValue) field.Names allMappings

/-- Line 36: the loop over `structType.Fields.List`. -/
def processFields : List Field → Mapping → Mapping
  | [], allMappings => allMappings
  | field :: fields, allMappings => processFields fields (processField field allMappings)

/-- Lines 25-57: the function literal handed to `ast.Inspect`, as the pair of
its result and the mapping it leaves. `none` is the nil node. -/
def visit : Option Node → Mapping → Bool × Mapping
  | some (Node.TypeSpec _ _ (Node.StructType fields)), allMappings =>
    (false, processFields fields allMappings)
  | _, allMappings => (true, allMappings)

mutual
/-- Go `ast.Inspect`: `f` is called on the node; when it returns true the
children are walked in order and `f` is called on nil afterwards. The visits
of the nodes the tree does not represent (identifiers, literals, comments, the
`FieldList` and `Field` nodes themselves) are left out: the function literal
of `processFile` returns true on them and changes nothing. -/
def Inspect (f : Option Node → Mapping → Bool × Mapping) : Node → Mapping → Mapping
  | Node.TypeSpec nm tps ty, s =>
    if (f (some (Node.TypeSpec nm tps ty)) s).1 then
      (f none (Inspect f ty (InspectFields f tps (f (some (Node.TypeSpec nm tps ty)) s).2))).2
    else (f (some (Node.TypeSpec nm tps ty)) s).2
  | Node.StructType fs, s =>
    if (f (some (Node.StructType fs)) s).1 then
      (f none (InspectFields f fs (f (some (Node.StructType fs)) s).2)).2
    else (f (some (Node.StructType fs)) s).2
  | Node.Other cs, s =>
    if (f (some (Node.Other cs)) s).1 then
      (f none (InspectList f cs (f (some (Node.Other cs)) s).2)).2
    else (f (some (Node.Other cs)) s).2
/-- The walk of a list of children. -/
def InspectList (f : Option Node → Mapping → Bool × Mapping) : List Node → Mapping → Mapping
  | [], s => s
  | n :: ns, s => InspectList f ns (Inspect f n s)
/-- The walk of a field list: of every field, its type. -/
def InspectFields (f : Option Node → Mapping → Bool × Mapping) :
    List (FieldOf Node) → Mapping → Mapping
  | [], s => s
  | fld :: flds, s => InspectFields f flds (Inspect f fld.Typ s)
end

/-- What the file system and the libraries answer during one run:
`filepath.Glob` (`none` for a malformed pattern), `parser.ParseFile` (`none`
when it returns an error) and whether `os.Create` succeeds. -/
structure World where
  Glob : GoString → Option (List GoString)
  ParseFile : GoString → Option Node
  Create : GoString → Bool

deriving instance DecidableEq for Except

/-- Lines 17-58, `processFile`: `Except.error 1` is `os.Exit(1)`. -/
def processFile (w : World) (filePath : GoString) (allMappings : Mapping) :
    Except Nat Mapping :=
  match w.ParseFile filePath with
  | none => Except.error 1
  | some node => Except.ok (Inspect visit node allMappings)

/-! ## `main` -/

/-- The three flags after `flag.Parse()`. -/
structure Flags where
  filePattern : GoString
  individualFilePaths : GoString
  output : GoString

/-- How the process ends. -/
inductive Status where
  | exited (code : Nat)
  | panicked
  | returned
deriving DecidableEq, Repr

/-- The loops of lines 85-87 and 92-94: `processFile` on every path in turn,
with the list of the paths handed to the parser so far. -/
def processAll (w : World) : List GoString → Mapping → List GoString →
    Except Nat Mapping × List GoString
  | [], allMappings, parsed => (Except.ok allMappings, parsed)
  | filePath :: paths, allMappings, parsed =>
    match processFile w filePath allMappings with
    | Except.error code => (Except.error code, parsed ++ [filePath])
    | Except.ok m => processAll w paths m (parsed ++ [filePath])

/-- Lines 76-95 of `main`: the mapping built from the pattern and from the
list, or the exit code, with the paths handed to the parser. -/
def collect (w : World) (fl : Flags) : Except Nat Mapping × List GoString :=
  let afterPattern : Except Nat Mapping × List GoString :=
    if fl.filePattern ≠ [] then
      match w.Glob fl.filePattern with
      | none => (Except.error 1, [])
      | some matched => processAll w matched [] []
    else (Except.ok [], [])
  match afterPattern with
  | (Except.error code, parsed) => (Except.error code, parsed)
  | (Except.ok allMappings, parsed) =>
    if fl.individualFilePaths ≠ [] then
      processAll w (Split 44 fl.individualFilePaths) allMappings parsed
    else (Except.ok allMappings, parsed)

/-- Byte-wise order of strings, the order in which `text/template` ranges
over the keys of a map. -/
def strLt : GoString → GoString → Bool
  | [], [] => false
  | [], _ :: _ => true
  | _ :: _, [] => false
  | a :: s, b :: t => if a < b then true else if b < a then false else strLt s t

/-- Insertion of an entry into a list sorted by key. -/
def insertSorted (e : GoString × GoString) : Mapping → Mapping
  | [] => [e]
  | x :: xs => if strLt e.1 x.1 then e :: x :: xs else x :: insertSorted e xs

/-- The entries of a map in the order of their keys. -/
def sortedEntries (m : Mapping) : Mapping :=
  m.foldr insertSorted []

/-- The text of the template before the range action. -/
def tmplHead : GoString := bytes "package mapping\n\nvar AllMappings = map[string]string\x7b"

/-- The text of the template after the range action. -/
def tmplTail : GoString := bytes "\n\x7d\n"

/-- One round of the range action: the key and the value are printed as they
are between the quotes of the template text. -/
def tmplEntry (e : GoString × GoString) : GoString :=
  bytes "\n\t\t\"" ++ e.1 ++ bytes "\": \"" ++ e.2 ++ bytes "\","

/-- Lines 97-104 and 113: `t.Execute(f, allMappings)`, the text written. -/
def Execute (allMappings : Mapping) : GoString :=
  tmplHead ++ (sortedEntries allMappings).flatMap tmplEntry ++ tmplTail

/-- The outcome of a run: how it ends, the paths handed to the parser, in
order, and the content of the output file afterwards (`none`: no such file). -/
structure Run where
  status : Status
  parsed : List GoString
  outputFile : Option GoString
deriving DecidableEq, Repr

/-- Lines 60-116, `main`; `prior` is the content of the output file before
the run. The constant template parses, and the writes to a file that has been
created succeed. -/
def main (w : World) (fl : Flags) (prior : Option GoString) : Run :=
  if fl.filePattern = [] ∧ fl.individualFilePaths = [] then
    { status := Status.exited 1, parsed := [], outputFile := prior }
  else
    match collect w fl with
    | (Except.error code, parsed) =>
      { status := Status.exited code, parsed := parsed, outputFile := prior }
    | (Except.ok allMappings, parsed) =>
      if w.Create fl.output then
        { status := Status.returned, parsed := parsed, outputFile := some (Execute allMappings) }
      else
        { status := Status.panicked, parsed := parsed, outputFile := prior }

/-! ## The specification's view of a run -/

/-- The insert-if-absent of lines 50-52 for one (key, value) pair. -/
def addEntry (m : Mapping) (e : GoString × GoString) : Mapping :=
  if (m.lookup e.1).isSome then m else Mapping.set m e.1 e.2

/-- The (key, value) pairs a field yields, one per identifier, in order: none
without a tag or with an empty json value. -/
def fieldPairs (field : Field) : List (GoString × GoString) :=
  match field.Tag with
  | none => []
  | some tagValue =>
    if jsonTagOf tagValue = [] then []
    else field.Names.map (fun fieldName => (convertedKey fieldName, jsonTagOf tagValue))

mutual
/-- The field lists of the struct type declarations the walk reaches, in the
order of the walk: the type specifications whose type is a struct type itself
(`type T struct`, not a struct type in parentheses or under a pointer or an
array) and that do not lie inside another such specification. -/
def reachedStructs : Node → List (List Field)
  | Node.TypeSpec _ tps ty =>
    match ty with
    | Node.StructType fs => [fs]
    | Node.TypeSpec nm2 tps2 ty2 => reachedInFields tps ++ reachedStructs (Node.TypeSpec nm2 tps2 ty2)
    | Node.Other cs => reachedInFields tps ++ reachedStructs (Node.Other cs)
  | Node.StructType fs => reachedInFields fs
  | Node.Other cs => reachedInList cs
/-- The reached declarations of a list of nodes. -/
def reachedInList : List Node → List (List Field)
  | [] => []
  | n :: ns => reachedStructs n ++ reachedInList ns
/-- The reached declarations inside the types of a field list. -/
def reachedInFields : List (FieldOf Node) → List (List Field)
  | [] => []
  | fld :: flds => reachedStructs fld.Typ ++ reachedInFields flds
end

mutual
/-- The field lists of all struct type declarations of a tree, also of those
inside a struct type declaration. -/
def allStructs : Node → List (List Field)
  | Node.TypeSpec _ tps ty =>
    (match ty with
      | Node.StructType fs => [fs]
      | _ => []) ++ (allInFields tps ++ allStructs ty)
  | Node.StructType fs => allInFields fs
  | Node.Other cs => allInList cs
/-- All struct type declarations of a list of nodes. -/
def allInList : List Node → List (List Field)
  | [] => []
  | n :: ns => allStructs n ++ allInList ns
/-- All struct type declarations inside the types of a field list. -/
def allInFields : List (FieldOf Node) → List (List Field)
  | [] => []
  | fld :: flds => allStructs fld.Typ ++ allInFields flds
end

/-- The (key, value) pairs of a file in processing order: the fields of the
reached struct type declarations, in the order of the walk. -/
def fieldEntries (file : Node) : List (GoString × GoString) :=
  (reachedStructs file).flatMap (fun fs => fs.flatMap fieldPairs)

/-- The pairs of the file at a path; none when the file does not parse. -/
def fileEntries (w : World) (filePath : GoString) : List (GoString × GoString) :=
  match w.ParseFile filePath with
  | none => []
  | some node => fieldEntries node

/-- The explicit list of line 91: empty when the flag is empty. -/
def explicitList (fl : Flags) : List GoString :=
  if fl.individualFilePaths ≠ [] then Split 44 fl.individualFilePaths else []

/-- The pattern of the run resolves to the file list `P`: no pattern and no
file, or the answer of `filepath.Glob`. -/
def resolvesTo (w : World) (fl : Flags) (P : List GoString) : Prop :=
  (fl.filePattern = [] ∧ P = []) ∨ (fl.filePattern ≠ [] ∧ w.Glob fl.filePattern = some P)

/-- An identifier with its first character in lower case, for an identifier
that starts with an ASCII character: a capital A..Z is replaced by a..z. -/
def lowerFirstAscii (name : GoString) : GoString :=
  match name with
  | [] => []
  | c :: cs => (if 65 ≤ c ∧ c ≤ 90 then c + 32 else c) :: cs

/-- A field with the type replaced by an empty node. -/
def eraseType (field : Field) : Field :=
  { Names := field.Names, Typ := Node.Other [], Tag := field.Tag }

/-- A raw string literal: the text between back quotes. -/
def rawLit (text : GoString) : GoString := 96 :: text ++ [96]

/-- An identifier from its name in source text (the name is not empty). -/
def ident (s : String) : Ident :=
  { first := (bytes s).headD 0, rest := (bytes s).tail }

/-- A struct field `name T` with the tag literal of the given text. -/
def taggedField (names : List String) (tagText : String) : Field :=
  { Names := names.map ident, Typ := Node.Other [], Tag := some (rawLit (bytes tagText)) }

/-- A file whose only declaration is `type T struct` with the given fields. -/
def structFile (fields : List Field) : Node :=
  Node.Other [Node.Other [Node.TypeSpec (ident "T") [] (Node.StructType fields)]]

/-- A world in which every path parses to the given file, no pattern matches
a file and the output file can be created. -/
def oneFileWorld (file : Node) : World :=
  { Glob := fun _ => some [], ParseFile := fun _ => some file, Create := fun _ => true }

/-- The path `a.go`. -/
def aGo : GoString := bytes "a.go"

/-- A field `name T` without a tag. -/
def plainField (names : List String) : Field :=
  { Names := names.map ident, Typ := Node.Other [], Tag := none }

/-- A world with two files: `a.go` parses to `fileA`, `b.go` to `fileB`, every
other path fails to parse; the pattern `*.go` matches `a.go`. -/
def twoFileWorld (fileA fileB : Node) : World :=
  { Glob := fun _ => some [bytes "a.go"],
    ParseFile := fun path =>
      if path = bytes "a.go" then some fileA
      else if path = bytes "b.go" then some fileB
      else none,
    Create := fun _ => true }

/-- The file `type T struct` with one field `Name` tagged `json:"first"`. -/
def fileFirst : Node := structFile [taggedField ["Name"] "json:\"first\""]

/-- The file `type T struct` with the fields `name` tagged `json:"second"` and
`Id` tagged `json:"id"`. -/
def fileSecond : Node :=
  structFile [taggedField ["name"] "json:\"second\"", taggedField ["Id"] "json:\"id\""]

/-- The flags `-pattern *.go -files b.go,c.go,a.go -output out.go`. -/
def flagsBoth : Flags :=
  { filePattern := bytes "*.go", individualFilePaths := bytes "b.go,c.go,a.go",
    output := bytes "out.go" }

/-- The flags `-pattern *.go -files b.go,a.go -output out.go`. -/
def flagsGood : Flags :=
  { filePattern := bytes "*.go", individualFilePaths := bytes "b.go,a.go",
    output := bytes "out.go" }

/-- The paths of a list written as the value of the flag `-files`: joined by
commas. -/
def joinComma : List GoString → GoString
  | [] => []
  | [q] => q
  | q :: r :: rest => q ++ 44 :: joinComma (r :: rest)

/-- A file whose only declaration is `type T (struct ...)`: the struct type
stands in parentheses. -/
def parenStructFile (fields : List Field) : Node :=
  Node.Other [Node.Other [Node.TypeSpec (ident "T") [] (Node.Other [Node.StructType fields])]]

/-- The fields `Name` tagged `json:"a"` and `name` tagged `json:"b"`, which
derive the same key. -/
def dupFields : List Field :=
  [taggedField ["Name"] "json:\"a\"", taggedField ["name"] "json:\"b\""]

/-- The scenario of the specification: `Name` tagged `json:"name"`, `id`
tagged `json:"identifier"` and the untagged `Internal`. -/
def scenarioFields : List Field :=
  [taggedField ["Name"] "json:\"name\"", taggedField ["id"] "json:\"identifier\"",
    plainField ["Internal"]]

/-- The flags `-files a.go -output out.go`. -/
def flagsList : Flags :=
  { filePattern := [], individualFilePaths := bytes "a.go", output := bytes "out.go" }


/-- The text between the quotes of a `key:"value"` pair, as the scan of
`StructTag.Lookup` delimits it: no double quote except after a backslash, and
no backslash at the very end. -/
def quotedBody : GoString → Bool
  | [] => true
  | c :: rest =>
    if c = 34 then false
    else if c = 92 then
      match rest with
      | [] => false
      | _ :: rest2 => quotedBody rest2
    else quotedBody rest

/-- A `key:"value"` pair of a tag with the spaces in front of it. -/
structure TagPair where
  spaces : Nat
  key : GoString
  body : GoString

/-- The text of a pair. -/
def TagPair.text (p : TagPair) : GoString :=
  List.replicate p.spaces 32 ++ (p.key ++ 58 :: 34 :: (p.body ++ [34]))

/-- A pair is well formed: the key is not empty and made of key bytes, the
value is delimited by its closing quote. -/
def TagPair.wellFormed (p : TagPair) : Prop :=
  p.key ≠ [] ∧ (∀ b ∈ p.key, isNameByte b = true) ∧ quotedBody p.body = true

/-! ## Lemmas: the walk as a list of insertions -/

theorem lookup_set_absent (m : Mapping) (k k2 v : GoString) (h : m.lookup k2 = none) :
    (Mapping.set m k2 v).lookup k = (m.lookup k).or (if k = k2 then some v else none) := by
  simp only [Mapping.set, h, Option.isSome_none, Bool.false_eq_true, if_false]
  rw [List.lookup_append]
  congr 1
  by_cases hk : k = k2
  · subst hk; simp
  · have hb : (k == k2) = false := by simpa using hk
    simp [List.lookup_cons, hk, hb]

theorem lookup_addEntry (m : Mapping) (e : GoString × GoString) (k : GoString) :
    (addEntry m e).lookup k = (m.lookup k).or (if k = e.1 then some e.2 else none) := by
  unfold addEntry
  cases h : m.lookup e.1 with
  | none => simpa using lookup_set_absent m k e.1 e.2 h
  | some v =>
    simp only [Option.isSome_some, if_true]
    by_cases hk : k = e.1
    · subst hk; simp [h]
    · simp [hk]

theorem lookup_foldl_addEntry (es : List (GoString × GoString)) (m : Mapping) (k : GoString) :
    (es.foldl addEntry m).lookup k = (m.lookup k).or (es.lookup k) := by
  induction es generalizing m with
  | nil => simp
  | cons e es ih =>
    rw [List.foldl_cons, ih, lookup_addEntry, List.lookup_cons]
    by_cases hk : k = e.1
    · subst hk; cases m.lookup e.1 <;> simp
    · have : (k == e.1) = false := by simpa using hk
      simp [hk, this]

theorem addNames_eq (j : GoString) (names : List Ident) (m : Mapping) :
    addNames j names m = (names.map (fun n => (convertedKey n, j))).foldl addEntry m := by
  induction names generalizing m with
  | nil => rfl
  | cons n ns ih =>
    simp only [addNames, List.map_cons, List.foldl_cons, addEntry]
    split <;> exact ih _

theorem processField_eq (field : Field) (m : Mapping) :
    processField field m = (fieldPairs field).foldl addEntry m := by
  unfold processField fieldPairs
  cases field.Tag with
  | none => rfl
  | some t =>
    simp only
    split
    · rfl
    · exact addNames_eq _ _ _

theorem processFields_eq (fields : List Field) (m : Mapping) :
    processFields fields m = (fields.flatMap fieldPairs).foldl addEntry m := by
  induction fields generalizing m with
  | nil => rfl
  | cons f fs ih =>
    simp only [processFields, List.flatMap_cons, List.foldl_append]
    rw [ih, processField_eq]

theorem inspect_typeSpec (nm : Ident) (tps : List (FieldOf Node)) (ty : Node) (m : Mapping) :
    Inspect visit (Node.TypeSpec nm tps ty) m =
      match ty with
      | Node.StructType fs => processFields fs m
      | _ => Inspect visit ty (InspectFields visit tps m) := by
  cases ty <;> rw [Inspect] <;> simp [visit]

theorem inspect_structType (fs : List (FieldOf Node)) (m : Mapping) :
    Inspect visit (Node.StructType fs) m = InspectFields visit fs m := by
  rw [Inspect]; simp [visit]

theorem inspect_other (cs : List Node) (m : Mapping) :
    Inspect visit (Node.Other cs) m = InspectList visit cs m := by
  rw [Inspect]; simp [visit]

mutual
theorem inspect_eq : ∀ (n : Node) (m : Mapping),
    Inspect visit n m =
      ((reachedStructs n).flatMap (fun fs => fs.flatMap fieldPairs)).foldl addEntry m
  | Node.TypeSpec nm tps ty, m => by
    have ih := inspect_eq ty
    have ihf := inspectFields_eq tps
    rw [inspect_typeSpec]
    cases ty with
    | StructType fs => simp [reachedStructs, processFields_eq]
    | TypeSpec nm2 tps2 ty2 =>
      simp only [reachedStructs, List.flatMap_append, List.foldl_append]
      rw [ih, ihf]
    | Other cs =>
      simp only [reachedStructs, List.flatMap_append, List.foldl_append]
      rw [ih, ihf]
      simp only [reachedStructs]
  | Node.StructType fs, m => by
    rw [inspect_structType, reachedStructs]
    exact inspectFields_eq fs m
  | Node.Other cs, m => by
    rw [inspect_other, reachedStructs]
    exact inspectList_eq cs m
theorem inspectList_eq : ∀ (ns : List Node) (m : Mapping),
    InspectList visit ns m =
      ((reachedInList ns).flatMap (fun fs => fs.flatMap fieldPairs)).foldl addEntry m
  | [], m => by simp [InspectList, reachedInList]
  | n :: ns, m => by
    simp only [InspectList, reachedInList, List.flatMap_append, List.foldl_append]
    rw [inspect_eq n m, inspectList_eq ns]
theorem inspectFields_eq : ∀ (fl : List (FieldOf Node)) (m : Mapping),
    InspectFields visit fl m =
      ((reachedInFields fl).flatMap (fun fs => fs.flatMap fieldPairs)).foldl addEntry m
  | [], m => by simp [InspectFields, reachedInFields]
  | f :: fl, m => by
    simp only [InspectFields, reachedInFields, List.flatMap_append, List.foldl_append]
    rw [inspect_eq f.Typ m, inspectFields_eq fl]
end

theorem inspect_lookup (file : Node) (m : Mapping) (k : GoString) :
    (Inspect visit file m).lookup k = (m.lookup k).or ((fieldEntries file).lookup k) := by
  rw [inspect_eq, lookup_foldl_addEntry]; rfl

theorem addEntry_append (m : Mapping) (e : GoString × GoString) :
    ∃ added, addEntry m e = m ++ added ∧ ∀ x ∈ added, m.lookup x.1 = none := by
  unfold addEntry
  cases h : m.lookup e.1 with
  | some v => exact ⟨[], by simp, by simp⟩
  | none =>
    refine ⟨[e], ?_, ?_⟩
    · simp [Mapping.set, h]
    · intro x hx
      simp only [List.mem_singleton] at hx
      subst hx
      exact h

theorem foldl_addEntry_append (es : List (GoString × GoString)) (m : Mapping) :
    ∃ added, es.foldl addEntry m = m ++ added ∧ ∀ x ∈ added, m.lookup x.1 = none := by
  induction es generalizing m with
  | nil => exact ⟨[], by simp, by simp⟩
  | cons e es ih =>
    obtain ⟨a1, h1, h1n⟩ := addEntry_append m e
    obtain ⟨a2, h2, h2n⟩ := ih (addEntry m e)
    refine ⟨a1 ++ a2, ?_, ?_⟩
    · rw [List.foldl_cons, h2, h1, List.append_assoc]
    · intro x hx
      rcases List.mem_append.1 hx with hx | hx
      · exact h1n x hx
      · have := h2n x hx
        rw [h1, List.lookup_append] at this
        cases hm : m.lookup x.1 with
        | none => rfl
        | some v => rw [hm] at this; simp at this

mutual
theorem reached_sub_all : ∀ (n : Node) (fs : List Field),
    fs ∈ reachedStructs n → fs ∈ allStructs n
  | Node.TypeSpec nm tps ty, fs, h => by
    have ih := reached_sub_all ty
    have ihf := reachedFields_sub_all tps
    cases ty with
    | StructType gs =>
      simp only [reachedStructs, List.mem_singleton] at h
      simp [allStructs, h]
    | TypeSpec nm2 tps2 ty2 =>
      simp only [reachedStructs, List.mem_append] at h
      simp only [allStructs, List.nil_append, List.mem_append]
      rcases h with h | h
      · exact Or.inl (ihf fs h)
      · have := ih fs h
        simp only [allStructs, List.mem_append] at this
        exact Or.inr this
    | Other cs =>
      simp only [reachedStructs, List.mem_append] at h
      simp only [allStructs, List.nil_append, List.mem_append]
      rcases h with h | h
      · exact Or.inl (ihf fs h)
      · have := ih fs h
        simp only [allStructs] at this
        exact Or.inr this
  | Node.StructType gs, fs, h => by
    rw [reachedStructs] at h
    rw [allStructs]
    exact reachedFields_sub_all gs fs h
  | Node.Other cs, fs, h => by
    rw [reachedStructs] at h
    rw [allStructs]
    exact reachedList_sub_all cs fs h
theorem reachedList_sub_all : ∀ (ns : List Node) (fs : List Field),
    fs ∈ reachedInList ns → fs ∈ allInList ns
  | [], fs, h => by simp [reachedInList] at h
  | n :: ns, fs, h => by
    simp only [reachedInList, List.mem_append] at h
    simp only [allInList, List.mem_append]
    rcases h with h | h
    · exact Or.inl (reached_sub_all n fs h)
    · exact Or.inr (reachedList_sub_all ns fs h)
theorem reachedFields_sub_all : ∀ (fl : List (FieldOf Node)) (fs : List Field),
    fs ∈ reachedInFields fl → fs ∈ allInFields fl
  | [], fs, h => by simp [reachedInFields] at h
  | f :: fl, fs, h => by
    simp only [reachedInFields, List.mem_append] at h
    simp only [allInFields, List.mem_append]
    rcases h with h | h
    · exact Or.inl (reached_sub_all f.Typ fs h)
    · exact Or.inr (reachedFields_sub_all fl fs h)
end

theorem mem_fieldEntries (file : Node) (fs : List Field) (f : Field) (t : GoString)
    (name : Ident) (hfs : fs ∈ reachedStructs file) (hf : f ∈ fs) (ht : f.Tag = some t)
    (hj : jsonTagOf t ≠ []) (hn : name ∈ f.Names) :
    (convertedKey name, jsonTagOf t) ∈ fieldEntries file := by
  unfold fieldEntries
  rw [List.mem_flatMap]
  refine ⟨fs, hfs, ?_⟩
  rw [List.mem_flatMap]
  refine ⟨f, hf, ?_⟩
  simp only [fieldPairs, ht, hj, if_false, List.mem_map]
  exact ⟨name, hn, rfl⟩

theorem lookup_of_mem (es : List (GoString × GoString)) (k v : GoString) (h : (k, v) ∈ es) :
    ∃ v2, es.lookup k = some v2 ∧ (k, v2) ∈ es := by
  induction es with
  | nil => simp at h
  | cons e es ih =>
    rw [List.lookup_cons]
    by_cases hk : k = e.1
    · subst hk
      exact ⟨e.2, by simp, by simp⟩
    · have hb : (k == e.1) = false := by simpa using hk
      rw [hb]
      rcases List.mem_cons.1 h with h | h
      · exact absurd (congrArg Prod.fst h) hk
      · obtain ⟨v2, h2, h3⟩ := ih h
        exact ⟨v2, h2, List.mem_cons_of_mem _ h3⟩

theorem convertedKey_ascii (name : Ident) (h : name.first < 128) :
    convertedKey name = lowerFirstAscii name.Name := by
  unfold convertedKey lowerFirstAscii Ident.Name ToLower EncodeRune
  by_cases hc : 65 ≤ name.first ∧ name.first ≤ 90
  · have h1 : name.first + 32 ≤ 127 := by omega
    simp [hc, h1]
  · have h2 : ¬ (192 ≤ name.first ∧ name.first ≤ 214) := by omega
    have h3 : ¬ (216 ≤ name.first ∧ name.first ≤ 222) := by omega
    have h4 : name.first ≤ 127 := by omega
    simp [hc, h2, h3, h4]

/-! ## Lemmas: the loops of `main` -/

theorem processAll_append (w : World) (xs ys : List GoString) (m : Mapping)
    (tr : List GoString) :
    processAll w (xs ++ ys) m tr =
      match processAll w xs m tr with
      | (Except.error c, tr2) => (Except.error c, tr2)
      | (Except.ok m2, tr2) => processAll w ys m2 tr2 := by
  induction xs generalizing m tr with
  | nil => simp [processAll]
  | cons x xs ih =>
    simp only [List.cons_append, processAll]
    cases processFile w x m with
    | error c => rfl
    | ok m2 => exact ih m2 _

theorem processAll_ok (w : World) (xs : List GoString)
    (h : ∀ q ∈ xs, (w.ParseFile q).isSome = true) (m : Mapping) (tr : List GoString) :
    processAll w xs m tr =
      (Except.ok ((xs.flatMap (fileEntries w)).foldl addEntry m), tr ++ xs) := by
  induction xs generalizing m tr with
  | nil => simp [processAll]
  | cons x xs ih =>
    have hx := h x (List.mem_cons_self _ _)
    cases hp : w.ParseFile x with
    | none => rw [hp] at hx; cases hx
    | some node =>
      simp only [processAll, processFile, hp]
      rw [ih (fun q hq => h q (List.mem_cons_of_mem _ hq))]
      simp [fileEntries, hp, inspect_eq, fieldEntries, List.foldl_append]

theorem processAll_fail (w : World) (p : GoString) (post : List GoString)
    (hp : w.ParseFile p = none) (m : Mapping) (tr : List GoString) :
    processAll w (p :: post) m tr = (Except.error 1, tr ++ [p]) := by
  simp [processAll, processFile, hp]

theorem collect_eq (w : World) (fl : Flags) (P : List GoString) (h : resolvesTo w fl P) :
    collect w fl = processAll w (P ++ explicitList fl) [] [] := by
  rw [processAll_append]
  unfold collect explicitList
  rcases h with ⟨h1, h2⟩ | ⟨h1, h2⟩
  · subst h2
    by_cases hL : fl.individualFilePaths = [] <;> simp [h1, hL, processAll]
  · simp only [h1, h2, ne_eq, not_false_eq_true, if_true]
    rcases processAll w P [] [] with ⟨r, tr⟩
    cases r with
    | error c => rfl
    | ok m2 =>
      by_cases hL : fl.individualFilePaths = [] <;> simp [hL, processAll]

theorem Split_no_sep (q : GoString) (h : ¬ (44 ∈ q)) : Split 44 q = [q] := by
  induction q with
  | nil => rfl
  | cons c cs ih =>
    have hc : c ≠ 44 := fun e => h (by simp [e])
    have hcs : ¬ (44 ∈ cs) := fun e => h (List.mem_cons_of_mem _ e)
    simp [Split, hc, ih hcs]

theorem Split_append_sep (q rest : GoString) (h : ¬ (44 ∈ q)) :
    Split 44 (q ++ 44 :: rest) = q :: Split 44 rest := by
  induction q with
  | nil => simp [Split]
  | cons c cs ih =>
    have hc : c ≠ 44 := fun e => h (by simp [e])
    have hcs : ¬ (44 ∈ cs) := fun e => h (List.mem_cons_of_mem _ e)
    simp [Split, hc, ih hcs]

theorem Split_joinComma : ∀ (L : List GoString), L ≠ [] → (∀ q ∈ L, ¬ (44 ∈ q)) →
    Split 44 (joinComma L) = L
  | [], h, _ => absurd rfl h
  | [q], _, hq => by
    rw [joinComma]
    exact Split_no_sep q (hq q (List.mem_singleton.2 rfl))
  | q :: r :: rest, _, hq => by
    rw [joinComma, Split_append_sep q _ (hq q (List.mem_cons_self _ _)),
      Split_joinComma (r :: rest) (by simp) (fun x hx => hq x (List.mem_cons_of_mem _ hx))]

theorem joinComma_eq_nil (L : List GoString) (hne : ∀ q ∈ L, q ≠ []) :
    joinComma L = [] ↔ L = [] := by
  match L with
  | [] => simp [joinComma]
  | [q] =>
    have := hne q (List.mem_singleton.2 rfl)
    simp [joinComma, this]
  | q :: r :: rest => simp [joinComma]

theorem explicitList_joinComma (fl : Flags) (L : List GoString)
    (hL : fl.individualFilePaths = joinComma L) (hpaths : ∀ q ∈ L, q ≠ [] ∧ ¬ (44 ∈ q)) :
    explicitList fl = L := by
  unfold explicitList
  rw [hL]
  by_cases h : L = []
  · subst h; simp [joinComma]
  · have hj : joinComma L ≠ [] :=
      fun e => h ((joinComma_eq_nil L (fun q hq => (hpaths q hq).1)).1 e)
    simp only [ne_eq, hj, not_false_eq_true, if_true]
    exact Split_joinComma L h (fun q hq => (hpaths q hq).2)

/-! ## Lemmas: the tag scan and the fuel of the loops -/

theorem length_dropWhile_le (p : Nat → Bool) (l : GoString) :
    (l.dropWhile p).length ≤ l.length := by
  induction l with
  | nil => simp
  | cons a l ih =>
    rw [List.dropWhile_cons]
    split
    · exact Nat.le_succ_of_le ih
    · exact Nat.le_refl _

theorem scanQuoted_length : ∀ (n : Nat) (s q r : GoString), s.length ≤ n →
    scanQuoted s = some (q, r) → r.length < s.length := by
  intro n
  induction n with
  | zero =>
    intro s q r hn h
    cases s with
    | nil => simp [scanQuoted] at h
    | cons c t => simp at hn
  | succ n ih =>
    intro s q r hn h
    cases s with
    | nil => simp [scanQuoted] at h
    | cons c t =>
      rw [scanQuoted.eq_def] at h
      simp only at h
      by_cases h34 : c = 34
      · simp only [h34, if_true, Option.some.injEq, Prod.mk.injEq] at h
        rw [← h.2]; simp
      · simp only [h34, if_false] at h
        by_cases h92 : c = 92
        · simp only [h92, if_true] at h
          cases t with
          | nil => simp at h
          | cons d t2 =>
            simp only at h
            cases hs : scanQuoted t2 with
            | none => simp [hs] at h
            | some qr =>
              obtain ⟨q2, r2⟩ := qr
              simp only [hs, Option.some.injEq, Prod.mk.injEq] at h
              have := ih t2 q2 r2 (by simp at hn; omega) hs
              rw [← h.2]; simp; omega
        · simp only [h92, if_false] at h
          cases hs : scanQuoted t with
          | none => simp [hs] at h
          | some qr =>
            obtain ⟨q2, r2⟩ := qr
            simp only [hs, Option.some.injEq, Prod.mk.injEq] at h
            have := ih t q2 r2 (by simp at hn; omega) hs
            rw [← h.2]; simp; omega

/-- The fuel of `lookupLoop` is never used up: any fuel above the length of
the tag gives the same result. -/
theorem lookupLoop_fuel (key : GoString) : ∀ (n n2 : Nat) (tag : GoString),
    tag.length < n → tag.length < n2 → lookupLoop key n tag = lookupLoop key n2 tag := by
  intro n
  induction n with
  | zero => intro n2 tag h; omega
  | succ n ih =>
    intro n2 tag h h2
    cases n2 with
    | zero => omega
    | succ n2 =>
      simp only [lookupLoop]
      have hd := length_dropWhile_le (fun b => b == 32) tag
      have hd2 := length_dropWhile_le isNameByte (tag.dropWhile (fun b => b == 32))
      generalize hrest : (tag.dropWhile (fun b => b == 32)).dropWhile isNameByte = rest at hd2
      split
      · rename_i rest2
        split
        · rfl
        · cases hs : scanQuoted rest2 with
          | none => rfl
          | some qr =>
            obtain ⟨q, tag2⟩ := qr
            simp only
            split
            · rfl
            · have hl := scanQuoted_length _ _ _ _ (Nat.le_refl _) hs
              simp only [List.length_cons] at hd2
              exact ih n2 tag2 (by omega) (by omega)
      · rfl

theorem scanQuoted_body : ∀ (n : Nat) (body rest : GoString), body.length ≤ n →
    quotedBody body = true → scanQuoted (body ++ 34 :: rest) = some (body ++ [34], rest) := by
  intro n
  induction n with
  | zero =>
    intro body rest hn _
    have : body = [] := List.length_eq_zero.1 (Nat.le_zero.1 hn)
    subst this
    rw [List.nil_append, scanQuoted.eq_def]
    simp
  | succ n ih =>
    intro body rest hn hq
    cases body with
    | nil =>
      rw [List.nil_append, scanQuoted.eq_def]
      simp
    | cons c t =>
      rw [quotedBody.eq_def] at hq
      simp only at hq
      rw [List.cons_append, scanQuoted.eq_def]
      simp only
      by_cases h34 : c = 34
      · simp [h34] at hq
      · simp only [h34, if_false] at hq ⊢
        by_cases h92 : c = 92
        · simp only [h92, if_true] at hq ⊢
          cases t with
          | nil => simp at hq
          | cons d t2 =>
            simp only at hq
            simp only [List.cons_append]
            rw [ih t2 rest (by simp at hn; omega) hq]
        · simp only [h92, if_false] at hq ⊢
          rw [ih t rest (by simp at hn; omega) hq]
          simp

theorem lookupLoop_round (key k0 body rest : GoString) (sp n : Nat)
    (hk0 : k0 ≠ []) (hname : ∀ b ∈ k0, isNameByte b = true) (hbody : quotedBody body = true) :
    lookupLoop key (n + 1) (List.replicate sp 32 ++ (k0 ++ 58 :: 34 :: (body ++ 34 :: rest))) =
      if key = k0 then Unquote (34 :: (body ++ [34])) else lookupLoop key n rest := by
  have h1 : (List.replicate sp 32 ++ (k0 ++ 58 :: 34 :: (body ++ 34 :: rest))).dropWhile
      (fun b => b == 32) = k0 ++ 58 :: 34 :: (body ++ 34 :: rest) := by
    rw [List.dropWhile_append_of_pos (by intro a ha; simp [List.eq_of_mem_replicate ha])]
    cases k0 with
    | nil => exact absurd rfl hk0
    | cons c k1 =>
      have hc := hname c (List.mem_cons_self _ _)
      have : (c == 32) = false := by
        simp only [isNameByte, decide_eq_true_eq] at hc
        simp; omega
      simp [List.dropWhile_cons, this]
  have h2 : (k0 ++ 58 :: 34 :: (body ++ 34 :: rest)).takeWhile isNameByte = k0 := by
    rw [List.takeWhile_append_of_pos hname]
    simp [List.takeWhile_cons, isNameByte]
  have h3 : (k0 ++ 58 :: 34 :: (body ++ 34 :: rest)).dropWhile isNameByte =
      58 :: 34 :: (body ++ 34 :: rest) := by
    rw [List.dropWhile_append_of_pos hname]
    simp [List.dropWhile_cons, isNameByte]
  simp only [lookupLoop, h1, h2, h3, hk0, if_false]
  rw [scanQuoted_body _ body rest (Nat.le_refl _) hbody]

theorem Lookup_skip (p : TagPair) (rest key : GoString) (hwf : p.wellFormed)
    (hne : key ≠ p.key) :
    StructTag.Lookup (p.text ++ rest) key = StructTag.Lookup rest key := by
  unfold StructTag.Lookup
  have ht : p.text ++ rest =
      List.replicate p.spaces 32 ++ (p.key ++ 58 :: 34 :: (p.body ++ 34 :: rest)) := by
    simp [TagPair.text]
  rw [ht, lookupLoop_round key p.key p.body rest p.spaces _ hwf.1 hwf.2.1 hwf.2.2]
  simp only [hne, if_false]
  apply lookupLoop_fuel
  · simp; omega
  · omega

theorem Lookup_skip_all (ps : List TagPair) (rest key : GoString)
    (hwf : ∀ p ∈ ps, p.wellFormed ∧ key ≠ p.key) :
    StructTag.Lookup (ps.flatMap TagPair.text ++ rest) key = StructTag.Lookup rest key := by
  induction ps with
  | nil => simp
  | cons p ps ih =>
    rw [List.flatMap_cons, List.append_assoc,
      Lookup_skip p _ key (hwf p (List.mem_cons_self _ _)).1 (hwf p (List.mem_cons_self _ _)).2]
    exact ih (fun q hq => hwf q (List.mem_cons_of_mem _ hq))

theorem Lookup_hit (sp : Nat) (key body rest : GoString)
    (hk : key ≠ []) (hname : ∀ b ∈ key, isNameByte b = true) (hbody : quotedBody body = true) :
    StructTag.Lookup (List.replicate sp 32 ++ (key ++ 58 :: 34 :: (body ++ 34 :: rest))) key =
      Unquote (34 :: (body ++ [34])) := by
  unfold StructTag.Lookup
  rw [lookupLoop_round key key body rest sp _ hk hname hbody]
  simp

theorem quotedBody_clean (V : GoString) (h : ∀ b ∈ V, b ≠ 92 ∧ b ≠ 34) :
    quotedBody V = true := by
  induction V with
  | nil => rfl
  | cons c t ih =>
    rw [quotedBody.eq_def]
    have hc := h c (List.mem_cons_self _ _)
    simp only [hc.1, hc.2, if_false]
    exact ih (fun b hb => h b (List.mem_cons_of_mem _ hb))

theorem Unquote_plain (V : GoString) (hclean : ∀ b ∈ V, b ≠ 92 ∧ b ≠ 34 ∧ b ≠ 10)
    (hvalid : ValidString V = true) : Unquote (34 :: (V ++ [34])) = some V := by
  have hall : ∀ a ∈ V, (a != 34) = true := by
    intro a ha; simpa using (hclean a ha).2.1
  have h1 : (V ++ [34]).takeWhile (fun b => b != 34) = V := by
    rw [List.takeWhile_append_of_pos hall]; simp [List.takeWhile_cons]
  have h2 : (V ++ [34]).dropWhile (fun b => b != 34) = [34] := by
    rw [List.dropWhile_append_of_pos hall]; simp [List.dropWhile_cons]
  have h92 : ¬ (92 ∈ V) := fun h => (hclean 92 h).1 rfl
  have h10 : ¬ (10 ∈ V) := fun h => (hclean 10 h).2.2 rfl
  simp only [Unquote, h1, h2]
  simp [h92, h10, hvalid]

theorem dropWhile_none (p : Nat → Bool) (l : GoString) (h : ∀ x ∈ l, p x = false) :
    l.dropWhile p = l := by
  cases l with
  | nil => rfl
  | cons a t => simp [List.dropWhile_cons, h a (List.mem_cons_self _ _)]

theorem Trim_rawLit (text : GoString) (h : ¬ (96 ∈ text)) : Trim (rawLit text) 96 = text := by
  have hne : ∀ x ∈ text, (x == 96) = false := by
    intro x hx
    have : x ≠ 96 := fun e => h (e ▸ hx)
    simpa using this
  unfold Trim rawLit
  rw [List.cons_append, List.dropWhile_cons]
  simp only [beq_self_eq_true, if_true]
  rw [List.dropWhile_append, dropWhile_none _ text hne]
  cases text with
  | nil => simp [List.dropWhile_cons]
  | cons a t =>
    simp only [List.isEmpty_cons, Bool.false_eq_true, if_false, List.reverse_append,
      List.reverse_cons, List.reverse_nil, List.nil_append, List.singleton_append]
    rw [List.dropWhile_cons]
    simp only [beq_self_eq_true, if_true]
    rw [dropWhile_none]
    · simp
    · intro x hx
      apply hne
      simpa [or_comm] using hx

theorem Trim_head (c : Nat) (t : GoString) (hc : c ≠ 96) :
    ∃ t2, Trim (c :: t) 96 = c :: t2 := by
  have hb : (c == 96) = false := by simpa using hc
  unfold Trim
  rw [List.dropWhile_cons]
  simp only [hb, Bool.false_eq_true, if_false, List.reverse_cons]
  rw [List.dropWhile_append]
  split
  · exact ⟨[], by simp [List.dropWhile_cons, hb]⟩
  · exact ⟨(List.dropWhile (fun b => b == 96) t.reverse).reverse, by simp⟩

/-- A tag written as an interpreted string literal (between double quotes)
has no json value for the program: only back quotes are trimmed, so the text
handed to `StructTag.Get` starts with a double quote and no key is found. -/
theorem jsonTagOf_interpreted_literal (t : GoString) : jsonTagOf (34 :: t) = [] := by
  obtain ⟨t2, h⟩ := Trim_head 34 t (by decide)
  unfold jsonTagOf StructTag.Get StructTag.Lookup
  rw [h]
  simp [lookupLoop, List.dropWhile_cons, List.takeWhile_cons, isNameByte]

theorem DecodeRune_size_pos (s : GoString) (h : s ≠ []) : 1 ≤ (DecodeRune s).2 := by
  cases s with
  | nil => exact absurd rfl h
  | cons s0 t =>
    simp only [DecodeRune]
    repeat' split
    all_goals simp

/-- The fuel of `validLoop` is never used up: any fuel of at least the length
of the string gives the same result. -/
theorem validLoop_fuel : ∀ (n n2 : Nat) (s : GoString),
    s.length ≤ n → s.length ≤ n2 → validLoop n s = validLoop n2 s := by
  intro n
  induction n with
  | zero =>
    intro n2 s h _
    have : s = [] := List.length_eq_zero.1 (Nat.le_zero.1 h)
    subst this
    cases n2 <;> rfl
  | succ n ih =>
    intro n2 s h h2
    cases s with
    | nil => cases n2 <;> rfl
    | cons c t =>
      cases n2 with
      | zero => simp at h2
      | succ n2 =>
        simp only [validLoop]
        split
        · rfl
        · have hp := DecodeRune_size_pos (c :: t) (by simp)
          apply ih
          · simp only [List.length_drop, List.length_cons] at h ⊢; omega
          · simp only [List.length_drop, List.length_cons] at h2 ⊢; omega

theorem hexEscape_length (e : Nat) (u tail : GoString) (r : Nat) (mb : Bool)
    (h : hexEscape e u = some (r, mb, tail)) : tail.length ≤ u.length := by
  unfold hexEscape at h
  simp only at h
  generalize (if e = 120 then 2 else if e = 117 then 4 else 8) = n at h
  split at h
  · simp at h
  · cases hv : hexValue (u.take n) 0 with
    | none => simp [hv] at h
    | some v =>
      simp only [hv] at h
      split at h
      · simp only [Option.some.injEq, Prod.mk.injEq] at h
        obtain ⟨_, _, h3⟩ := h
        subst h3
        simp only [List.length_drop]; omega
      · split at h
        · simp only [Option.some.injEq, Prod.mk.injEq] at h
          obtain ⟨_, _, h3⟩ := h
          subst h3
          simp only [List.length_drop]; omega
        · simp at h

theorem octalEscape_length (e : Nat) (u tail : GoString) (r : Nat) (mb : Bool)
    (h : octalEscape e u = some (r, mb, tail)) : tail.length ≤ u.length := by
  unfold octalEscape at h
  split at h
  · split at h
    · split at h
      · simp at h
      · simp only [Option.some.injEq, Prod.mk.injEq] at h
        obtain ⟨_, _, h3⟩ := h
        subst h3
        simp only [List.length_cons]; omega
    · simp at h
  · simp at h

theorem UnquoteChar_length (s tail : GoString) (r : Nat) (mb : Bool)
    (h : UnquoteChar s = some (r, mb, tail)) : tail.length < s.length := by
  cases s with
  | nil => simp [UnquoteChar] at h
  | cons c t =>
    have hp := DecodeRune_size_pos (c :: t) (by simp)
    simp only [UnquoteChar] at h
    by_cases h1 : c = 34
    · simp [h1] at h
    · simp only [h1, if_false] at h
      by_cases h2 : 128 ≤ c
      · simp only [h2, if_true, Option.some.injEq, Prod.mk.injEq] at h
        rw [← h.2.2]
        simp only [List.length_drop, List.length_cons] at *; omega
      · simp only [h2, if_false] at h
        by_cases h3 : c = 92
        · simp only [h3, ne_eq, not_true_eq_false, if_false] at h
          cases t with
          | nil => simp at h
          | cons e u =>
            simp only at h
            split at h
            · have := hexEscape_length _ _ _ _ _ h
              simp only [List.length_cons]; omega
            · split at h
              · have := octalEscape_length _ _ _ _ _ h
                simp only [List.length_cons]; omega
              · split at h
                · simp only [Option.some.injEq, Prod.mk.injEq] at h
                  obtain ⟨_, _, h3⟩ := h
                  subst h3
                  simp only [List.length_cons]; omega
                · simp at h
        · simp only [h3, ne_eq, not_false_eq_true, if_true, Option.some.injEq,
            Prod.mk.injEq] at h
          rw [← h.2.2]; simp

/-- The fuel of `unquoteLoop` is never used up: any fuel above the length of
the input gives the same result. -/
theorem unquoteLoop_fuel : ∀ (n n2 : Nat) (s buf : GoString),
    s.length < n → s.length < n2 → unquoteLoop n s buf = unquoteLoop n2 s buf := by
  intro n
  induction n with
  | zero => intro n2 s buf h; omega
  | succ n ih =>
    intro n2 s buf h h2
    cases n2 with
    | zero => omega
    | succ n2 =>
      cases s with
      | nil => rfl
      | cons c t =>
        simp only [unquoteLoop]
        split
        · rfl
        · cases hu : UnquoteChar (c :: t) with
          | none => rfl
          | some x =>
            obtain ⟨r, mb, tail⟩ := x
            have hl := UnquoteChar_length _ _ _ _ hu
            simp only [List.length_cons] at hl h h2
            simp only
            split
            · rfl
            · split
              · exact ih n2 tail _ (by omega) (by omega)
              · exact ih n2 tail _ (by omega) (by omega)

/-! ## The claims -/

/-- C3: `processFile` never overwrites. On a file that parses it returns, the
mapping it leaves is the caller's mapping followed by added entries, every
added entry has a key that was absent from the caller's mapping, and every key
present before the call has the same value after it. -/
theorem C3_processFile_never_overwrites (w : World) (filePath : GoString) (node : Node)
    (m : Mapping) (hparse : w.ParseFile filePath = some node) :
    ∃ m2 added, processFile w filePath m = Except.ok m2 ∧ m2 = m ++ added ∧
      (∀ e ∈ added, m.lookup e.1 = none) ∧
      ∀ k v, m.lookup k = some v → m2.lookup k = some v := by
  obtain ⟨added, h1, h2⟩ :=
    foldl_addEntry_append ((reachedStructs node).flatMap (fun fs => fs.flatMap fieldPairs)) m
  refine ⟨Inspect visit node m, added, ?_, ?_, h2, ?_⟩
  · simp [processFile, hparse]
  · rw [inspect_eq, h1]
  · intro k v hk
    rw [inspect_lookup, hk]
    rfl

/-- Witness of C3: a mapping that already holds `name` keeps its value when a
file with a field `Name` tagged `json:"other"` is processed. -/
theorem C3_processFile_never_overwrites_witness :
    ∃ m2 added,
      processFile (oneFileWorld (structFile [taggedField ["Name"] "json:\"other\""])) aGo
        [(bytes "name", bytes "kept")] = Except.ok m2 ∧
      m2 = [(bytes "name", bytes "kept")] ++ added ∧
      (∀ e ∈ added, List.lookup e.1 [(bytes "name", bytes "kept")] = none) ∧
      ∀ k v, List.lookup k [(bytes "name", bytes "kept")] = some v → m2.lookup k = some v :=
  C3_processFile_never_overwrites (oneFileWorld (structFile [taggedField ["Name"] "json:\"other\""]))
    aGo (structFile [taggedField ["Name"] "json:\"other\""]) [(bytes "name", bytes "kept")] rfl

/-- C5: a field with no tag, or with a tag whose json value is empty or
absent, produces no entry. On a file in which every field of every struct
type declaration is of that kind, `processFile` returns the caller's mapping
exactly as it was. -/
theorem C5_untagged_fields_add_nothing (w : World) (filePath : GoString) (node : Node)
    (m : Mapping) (hparse : w.ParseFile filePath = some node)
    (hall : ∀ fs ∈ allStructs node, ∀ f ∈ fs,
      f.Tag = none ∨ ∃ t, f.Tag = some t ∧ jsonTagOf t = []) :
    processFile w filePath m = Except.ok m := by
  have hempty : (reachedStructs node).flatMap (fun fs => fs.flatMap fieldPairs) = [] := by
    rw [List.flatMap_eq_nil_iff]
    intro fs hfs
    rw [List.flatMap_eq_nil_iff]
    intro f hf
    rcases hall fs (reached_sub_all node fs hfs) f hf with h | ⟨t, h, hj⟩
    · simp [fieldPairs, h]
    · simp [fieldPairs, h, hj]
  simp [processFile, hparse, inspect_eq, hempty]

/-- Witness of C5: a struct with the untagged field `Internal`, a field
tagged `json:""` and a field whose tag has no json key leaves the mapping as
it was. -/
theorem C5_untagged_fields_add_nothing_witness :
    processFile
      (oneFileWorld (structFile [plainField ["Internal"], taggedField ["A"] "json:\"\"",
        taggedField ["B"] "db:\"b\""]))
      aGo [(bytes "k", bytes "v")] = Except.ok [(bytes "k", bytes "v")] :=
  C5_untagged_fields_add_nothing _ aGo
    (structFile [plainField ["Internal"], taggedField ["A"] "json:\"\"",
      taggedField ["B"] "db:\"b\""])
    [(bytes "k", bytes "v")] rfl (by decide)

/-- C9: only the fields listed directly in the field list of a struct type
declaration contribute. The walk of a struct type declaration is the loop over
its own fields and nothing else (the function literal returns false, so
neither the type parameters nor the field types are walked), and that loop
reads only names and tags: replacing every field type, for instance an
anonymous struct type with tagged fields, by an empty node changes nothing.
For a whole file, the entries added are those of the fields listed directly
in the struct type declarations the walk reaches. -/
theorem C9_only_direct_fields (nm : Ident) (tps : List (FieldOf Node)) (fields : List Field)
    (file : Node) (m : Mapping) :
    Inspect visit (Node.TypeSpec nm tps (Node.StructType fields)) m = processFields fields m ∧
    reachedStructs (Node.TypeSpec nm tps (Node.StructType fields)) = [fields] ∧
    Inspect visit (Node.TypeSpec nm tps (Node.StructType fields)) m =
      Inspect visit (Node.TypeSpec nm [] (Node.StructType (fields.map eraseType))) m ∧
    Inspect visit file m =
      ((reachedStructs file).flatMap (fun fs => fs.flatMap fieldPairs)).foldl addEntry m := by
  refine ⟨by rw [inspect_typeSpec], by simp [reachedStructs], ?_, inspect_eq file m⟩
  rw [inspect_typeSpec, inspect_typeSpec]
  simp only [processFields_eq]
  congr 1
  induction fields with
  | nil => rfl
  | cons f fs ih =>
    simp only [List.map_cons, List.flatMap_cons, ih]
    rfl

/-- An instance of C9: in `type T struct` with the field `Outer` of an
anonymous struct type that has the field `Inner` tagged `json:"inner"`, only
`Outer`, tagged `json:"outer"`, gives an entry. -/
theorem nested_struct_adds_nothing :
    processFile
      (oneFileWorld (structFile
        [{ Names := [ident "Outer"],
           Typ := Node.StructType [taggedField ["Inner"] "json:\"inner\""],
           Tag := some (rawLit (bytes "json:\"outer\"")) }])) aGo [] =
      Except.ok [(bytes "outer", bytes "outer")] := by
  decide

/-- C8: when an input file fails to parse, the run exits with status 1 at that
file: the parser has been handed the files before it and the file itself and
no later one, and the output file has the content it had before the run. -/
theorem C8_parse_failure_stops_run (w : World) (fl : Flags) (prior : Option GoString)
    (P pre post : List GoString) (p : GoString)
    (hP : resolvesTo w fl P)
    (hsplit : P ++ explicitList fl = pre ++ p :: post)
    (hpre : ∀ q ∈ pre, (w.ParseFile q).isSome = true)
    (hp : w.ParseFile p = none) :
    main w fl prior =
      { status := Status.exited 1, parsed := pre ++ [p], outputFile := prior } := by
  have hc : collect w fl = (Except.error 1, pre ++ [p]) := by
    rw [collect_eq w fl P hP, hsplit, processAll_append, processAll_ok w pre hpre]
    simp [processAll_fail w p post hp]
  have hne : ¬ (fl.filePattern = [] ∧ fl.individualFilePaths = []) := by
    rintro ⟨h1, h2⟩
    rcases hP with ⟨_, hP2⟩ | ⟨hP1, _⟩
    · subst hP2
      simp [explicitList, h2] at hsplit
    · exact hP1 h1
  simp [main, hne, hc]

/-- Witness of C8: with the pattern matching `a.go` and the list
`b.go,c.go,a.go`, where `c.go` does not parse, the run stops at `c.go` and the
output file keeps its old content. -/
theorem C8_parse_failure_stops_run_witness :
    main (twoFileWorld fileFirst fileSecond) flagsBoth (some (bytes "old")) =
      { status := Status.exited 1, parsed := [bytes "a.go", bytes "b.go"] ++ [bytes "c.go"],
        outputFile := some (bytes "old") } :=
  C8_parse_failure_stops_run (twoFileWorld fileFirst fileSecond) flagsBoth (some (bytes "old"))
    [bytes "a.go"] [bytes "a.go", bytes "b.go"] [bytes "a.go"] (bytes "c.go")
    (Or.inr ⟨by decide, rfl⟩) (by decide) (by decide) rfl

/-- C4: in a run whose pattern resolves to the file list `P` and whose flag
`-files` is the paths of `L` joined by commas (no path empty or with a comma),
with every file parsing, the files are handed to the parser in the order `P`
followed by `L`, and the mapping written to the output file, built from the
empty mapping, holds for a key exactly the value of the first (key, value)
pair with that key among the pairs of the fields in processing order (file
order, then field order within the file): the pairs split into the pairs
before it, none of which has the key, the pair itself, and the later pairs,
which are ignored. -/
theorem C4_first_file_first_field_wins (w : World) (fl : Flags) (prior : Option GoString)
    (P L : List GoString)
    (hP : resolvesTo w fl P)
    (hL : fl.individualFilePaths = joinComma L)
    (hpaths : ∀ q ∈ L, q ≠ [] ∧ ¬ (44 ∈ q))
    (hflags : ¬ (fl.filePattern = [] ∧ fl.individualFilePaths = []))
    (hall : ∀ q ∈ P ++ L, (w.ParseFile q).isSome = true)
    (hcreate : w.Create fl.output = true) :
    ∃ m, collect w fl = (Except.ok m, P ++ L) ∧
      (∀ k v, m.lookup k = some v ↔
        ∃ before later, (P ++ L).flatMap (fileEntries w) = before ++ (k, v) :: later ∧
          ∀ e ∈ before, e.1 ≠ k) ∧
      main w fl prior =
        { status := Status.returned, parsed := P ++ L, outputFile := some (Execute m) } := by
  have hE := explicitList_joinComma fl L hL hpaths
  have hc := collect_eq w fl P hP
  rw [hE, processAll_ok w _ hall, List.nil_append] at hc
  refine ⟨_, hc, ?_, ?_⟩
  · intro k v
    rw [lookup_foldl_addEntry, List.lookup_nil, Option.none_or, List.lookup_eq_some_iff]
    constructor
    · rintro ⟨l1, l2, h1, h2⟩
      exact ⟨l1, l2, h1, fun e he hk => by simpa [hk] using h2 e he⟩
    · rintro ⟨l1, l2, h1, h2⟩
      exact ⟨l1, l2, h1, fun e he => by simpa using fun hk => h2 e he hk.symm⟩
  · simp only [main, hflags, hc, hcreate, if_false, if_true]

/-- Witness of C4: the pattern gives `a.go`, the flag `-files` is `b.go,a.go`.
`a.go` maps `name` to `first`; `b.go`, second in the order, would map it to
`second` and adds `id`; `a.go` again adds nothing. The mapping built is
name -> first, id -> id, and the output file lists it by key. -/
theorem C4_first_file_first_field_wins_witness :
    (∃ m, collect (twoFileWorld fileFirst fileSecond) flagsGood =
        (Except.ok m, [bytes "a.go"] ++ [bytes "b.go", bytes "a.go"]) ∧
      (∀ k v, m.lookup k = some v ↔
        ∃ before later,
          ([bytes "a.go"] ++ [bytes "b.go", bytes "a.go"]).flatMap
            (fileEntries (twoFileWorld fileFirst fileSecond)) = before ++ (k, v) :: later ∧
          ∀ e ∈ before, e.1 ≠ k) ∧
      main (twoFileWorld fileFirst fileSecond) flagsGood none =
        { status := Status.returned, parsed := [bytes "a.go"] ++ [bytes "b.go", bytes "a.go"],
          outputFile := some (Execute m) }) ∧
    collect (twoFileWorld fileFirst fileSecond) flagsGood =
      (Except.ok [(bytes "name", bytes "first"), (bytes "id", bytes "id")],
        [bytes "a.go", bytes "b.go", bytes "a.go"]) ∧
    main (twoFileWorld fileFirst fileSecond) flagsGood none =
      { status := Status.returned, parsed := [bytes "a.go", bytes "b.go", bytes "a.go"],
        outputFile := some (bytes
          "package mapping\n\nvar AllMappings = map[string]string\x7b\n\t\t\"id\": \"id\",\n\t\t\"name\": \"first\",\n\x7d\n") } :=
  ⟨C4_first_file_first_field_wins (twoFileWorld fileFirst fileSecond) flagsGood none
      [bytes "a.go"] [bytes "b.go", bytes "a.go"] (Or.inr ⟨by decide, rfl⟩) (by decide)
      (by decide) (by decide) (by decide) rfl,
    by decide, by decide⟩

/-- The scenario of the specification evaluates to the mapping
name -> name, id -> identifier. -/
theorem scenario_mapping :
    processFile (oneFileWorld (structFile scenarioFields)) aGo [] =
      Except.ok [(bytes "name", bytes "name"), (bytes "id", bytes "identifier")] := by
  decide

/-- C1, as stated, fails: in `type T struct` with `Name` tagged `json:"a"` and
`name` tagged `json:"b"`, the field `name` has the non-empty json value `b`,
but after `processFile` on the empty mapping the key `name` holds `a`, the
value of the field processed first. -/
theorem C1_counterexample :
    allStructs (structFile dupFields) = [dupFields] ∧
    dupFields.map fieldPairs =
      [[(bytes "name", bytes "a")], [(lowerFirstAscii (ident "name").Name, bytes "b")]] ∧
    processFile (oneFileWorld (structFile dupFields)) aGo [] =
      Except.ok [(bytes "name", bytes "a")] ∧
    List.lookup (lowerFirstAscii (ident "name").Name) [(bytes "name", bytes "a")] ≠
      some (bytes "b") := by
  refine ⟨rfl, by decide, by decide, by decide⟩

/-- C1, amended: for every type declaration of the file whose type is a struct
type itself (`type T struct`, not a struct type in parentheses) and that does
not lie inside another such declaration (`reachedStructs`), every field of it
with a non-empty json value and every identifier of that field that starts
with an ASCII character, the mapping `processFile` builds from the empty
mapping has the key "identifier with its first character in lower case", and
its value is that of the first field in processing order that derives the
key: the field's own json value whenever every field deriving the key carries
that value. -/
theorem C1_key_present_first_value (w : World) (filePath : GoString) (file : Node)
    (fs : List Field) (f : Field) (t : GoString) (name : Ident)
    (hparse : w.ParseFile filePath = some file)
    (hfs : fs ∈ reachedStructs file) (hf : f ∈ fs)
    (ht : f.Tag = some t) (hj : jsonTagOf t ≠ [])
    (hn : name ∈ f.Names) (hascii : name.first < 128) :
    ∃ m v, processFile w filePath [] = Except.ok m ∧
      m.lookup (lowerFirstAscii name.Name) = some v ∧
      (fieldEntries file).lookup (lowerFirstAscii name.Name) = some v ∧
      ((∀ e ∈ fieldEntries file, e.1 = lowerFirstAscii name.Name → e.2 = jsonTagOf t) →
        v = jsonTagOf t) := by
  have hmem := mem_fieldEntries file fs f t name hfs hf ht hj hn
  rw [convertedKey_ascii name hascii] at hmem
  obtain ⟨v, hv, hvm⟩ := lookup_of_mem _ _ _ hmem
  refine ⟨Inspect visit file [], v, ?_, ?_, hv, ?_⟩
  · simp [processFile, hparse]
  · rw [inspect_lookup, hv]; rfl
  · intro h
    exact h _ hvm rfl

/-- Witness of C1, amended: the field `Name` of the scenario of the
specification, whose key is `name`. -/
theorem C1_key_present_first_value_witness :
    ∃ m v, processFile (oneFileWorld (structFile scenarioFields)) aGo [] = Except.ok m ∧
      m.lookup (lowerFirstAscii (ident "Name").Name) = some v ∧
      (fieldEntries (structFile scenarioFields)).lookup (lowerFirstAscii (ident "Name").Name) =
        some v ∧
      ((∀ e ∈ fieldEntries (structFile scenarioFields),
          e.1 = lowerFirstAscii (ident "Name").Name →
            e.2 = jsonTagOf (rawLit (bytes "json:\"name\""))) →
        v = jsonTagOf (rawLit (bytes "json:\"name\""))) :=
  C1_key_present_first_value (oneFileWorld (structFile scenarioFields)) aGo
    (structFile scenarioFields) scenarioFields (taggedField ["Name"] "json:\"name\"")
    (rawLit (bytes "json:\"name\"")) (ident "Name") rfl
    (List.Mem.head _) (List.Mem.head _) rfl (by decide) (by decide)
    (by decide)

/-- A struct type in parentheses is not a struct type declaration for the
walk: the type of `type T (struct ...)` is a parenthesised expression, lines
31-34 return true, and the field `X` tagged `json:"x"` gives no entry. -/
theorem parenthesised_struct_adds_nothing :
    reachedStructs (parenStructFile [taggedField ["X"] "json:\"x\""]) = [] ∧
    processFile (oneFileWorld (parenStructFile [taggedField ["X"] "json:\"x\""])) aGo [] =
      Except.ok [] :=
  ⟨rfl, by decide⟩

/-- C2 fails on the code for a first letter of several bytes. For the field
`Éa` (bytes C3 89 61) line 49 lowers the byte C3 as if it were the rune U+00C3,
encodes the result U+00E3 as C3 A3 and appends the bytes 89 61: the key is
C3 A3 89 61, which is not valid UTF-8 and is not `éa` (bytes C3 A9 61). -/
theorem C2_multibyte_first_letter :
    bytes "Éa" = [0xC3, 0x89, 0x61] ∧
    bytes "éa" = [0xC3, 0xA9, 0x61] ∧
    processFile (oneFileWorld (structFile [taggedField ["Éa"] "json:\"x\""])) aGo [] =
      Except.ok [([0xC3, 0xA3, 0x89, 0x61], bytes "x")] ∧
    ValidString [0xC3, 0xA3, 0x89, 0x61] = false := by
  decide

/-- C6, as stated, fails: the field declaration `A, a int` tagged `json:"x"`
names two different identifiers, and both derive the key `a`; the mapping has
one entry. -/
theorem C6_counterexample :
    ident "A" ≠ ident "a" ∧
    convertedKey (ident "A") = convertedKey (ident "a") ∧
    processFile (oneFileWorld (structFile [taggedField ["A", "a"] "json:\"x\""])) aGo [] =
      Except.ok [(bytes "a", bytes "x")] := by
  decide

/-- C6, amended: a field declaration that names two identifiers whose derived
keys differ and that has a non-empty json value, in a type declaration whose
type is a struct type itself (`type T struct`, not a struct type in
parentheses) and that does not lie inside another such declaration
(`reachedStructs`), gives, from the empty mapping, two different keys that
both hold that value, provided every field of the file that derives one of the
two keys carries that value. -/
theorem C6_two_names_two_keys (w : World) (filePath : GoString) (file : Node)
    (fs : List Field) (f : Field) (t : GoString) (n1 n2 : Ident)
    (hparse : w.ParseFile filePath = some file)
    (hfs : fs ∈ reachedStructs file) (hf : f ∈ fs)
    (hnames : f.Names = [n1, n2])
    (ht : f.Tag = some t) (hj : jsonTagOf t ≠ [])
    (hdiff : convertedKey n1 ≠ convertedKey n2)
    (hothers : ∀ e ∈ fieldEntries file,
      e.1 = convertedKey n1 ∨ e.1 = convertedKey n2 → e.2 = jsonTagOf t) :
    ∃ m, processFile w filePath [] = Except.ok m ∧
      convertedKey n1 ≠ convertedKey n2 ∧
      m.lookup (convertedKey n1) = some (jsonTagOf t) ∧
      m.lookup (convertedKey n2) = some (jsonTagOf t) := by
  have key : ∀ n ∈ f.Names, (Inspect visit file []).lookup (convertedKey n) =
      some (jsonTagOf t) := by
    intro n hn
    have hmem := mem_fieldEntries file fs f t n hfs hf ht hj hn
    obtain ⟨v, hv, hvm⟩ := lookup_of_mem _ _ _ hmem
    have hn12 : n = n1 ∨ n = n2 := by simpa [hnames] using hn
    have hv2 : v = jsonTagOf t :=
      hothers _ hvm (hn12.elim (fun h => Or.inl (by rw [h])) (fun h => Or.inr (by rw [h])))
    rw [inspect_lookup, hv, hv2]; rfl
  refine ⟨Inspect visit file [], ?_, hdiff, ?_, ?_⟩
  · simp [processFile, hparse]
  · exact key n1 (by simp [hnames])
  · exact key n2 (by simp [hnames])

/-- Witness of C6, amended: `First, Second string` tagged `json:"n"`. -/
theorem C6_two_names_two_keys_witness :
    ∃ m, processFile
        (oneFileWorld (structFile [taggedField ["First", "Second"] "json:\"n\""])) aGo [] =
        Except.ok m ∧
      convertedKey (ident "First") ≠ convertedKey (ident "Second") ∧
      m.lookup (convertedKey (ident "First")) = some (jsonTagOf (rawLit (bytes "json:\"n\""))) ∧
      m.lookup (convertedKey (ident "Second")) = some (jsonTagOf (rawLit (bytes "json:\"n\""))) :=
  C6_two_names_two_keys (oneFileWorld (structFile [taggedField ["First", "Second"] "json:\"n\""]))
    aGo (structFile [taggedField ["First", "Second"] "json:\"n\""])
    [taggedField ["First", "Second"] "json:\"n\""] (taggedField ["First", "Second"] "json:\"n\"")
    (rawLit (bytes "json:\"n\"")) (ident "First") (ident "Second") rfl
    (List.Mem.head _) (List.Mem.head _) rfl rfl (by decide) (by decide) (by decide)

/-- C7 fails on the code for a value with a double quote. The field `A` tagged
`json:"a\"b"` has the json value `a"b`; the template prints it as it is
between two quotes, so the entry of the output file reads `"a": "a"b",`, which
is no string literal for the value (`strconv.Unquote` rejects `"a"b"`) and no
valid Go source. -/
theorem C7_value_printed_unescaped :
    processFile (oneFileWorld (structFile [taggedField ["A"] "json:\"a\\\"b\""])) aGo [] =
      Except.ok [(bytes "a", bytes "a\"b")] ∧
    main (oneFileWorld (structFile [taggedField ["A"] "json:\"a\\\"b\""])) flagsList none =
      { status := Status.returned, parsed := [aGo],
        outputFile := some (bytes
          "package mapping\n\nvar AllMappings = map[string]string\x7b\n\t\t\"a\": \"a\"b\",\n\x7d\n") } ∧
    Unquote (bytes "\"a\"b\"") = none := by
  decide

/-- The examples of C10: the value of `json:"name,omitempty"` is
`name,omitempty` and the value of `json:"-"` is `-`. -/
theorem comma_and_dash_values :
    processFile
      (oneFileWorld (structFile [taggedField ["Name"] "json:\"name,omitempty\"",
        taggedField ["Secret"] "json:\"-\""])) aGo [] =
      Except.ok [(bytes "name", bytes "name,omitempty"), (bytes "secret", bytes "-")] := by
  decide

/-- C10, as stated, fails: the raw tag of the field `A` is `json:"V"` with `V`
the four bytes a, backslash, backslash, b; `StructTag.Get` unquotes the value,
so the value stored is the three bytes a, backslash, b and not `V`. -/
theorem C10_counterexample :
    (taggedField ["A"] "json:\"a\\\\b\"").Tag =
      some (rawLit (bytes "json:\"" ++ bytes "a\\\\b" ++ bytes "\"")) ∧
    bytes "a\\\\b" = [97, 92, 92, 98] ∧
    processFile (oneFileWorld (structFile [taggedField ["A"] "json:\"a\\\\b\""])) aGo [] =
      Except.ok [(bytes "a", [97, 92, 98])] := by
  decide

/-- C10, amended: for a field whose tag is a raw string literal made of well
formed `key:"value"` pairs with keys other than json, then `json:"V"` with `V`
not empty, valid UTF-8 and free of backslash, double quote and line feed, then
any text, the json value the program reads is `V` unchanged, nothing split or
stripped at a comma; the pairs the field hands to the mapping all carry `V`,
and a key of the field that is absent from the mapping holds `V` after the
field has been processed. -/
theorem C10_whole_json_value (f : Field) (others : List TagPair) (sp : Nat)
    (V post text : GoString) (name : Ident) (m : Mapping)
    (htext : text = others.flatMap TagPair.text ++
      (List.replicate sp 32 ++ (jsonKey ++ 58 :: 34 :: (V ++ 34 :: post))))
    (htag : f.Tag = some (rawLit text))
    (hraw : ¬ (96 ∈ text))
    (hothers : ∀ p ∈ others, p.wellFormed ∧ jsonKey ≠ p.key)
    (hV : V ≠ [])
    (hclean : ∀ b ∈ V, b ≠ 92 ∧ b ≠ 34 ∧ b ≠ 10)
    (hvalid : ValidString V = true)
    (hn : name ∈ f.Names)
    (habsent : m.lookup (convertedKey name) = none) :
    jsonTagOf (rawLit text) = V ∧
    fieldPairs f = f.Names.map (fun n => (convertedKey n, V)) ∧
    (processField f m).lookup (convertedKey name) = some V := by
  have hj : jsonTagOf (rawLit text) = V := by
    unfold jsonTagOf StructTag.Get
    rw [Trim_rawLit text hraw, htext, Lookup_skip_all others _ jsonKey hothers,
      Lookup_hit sp jsonKey V post (by decide) (by decide)
        (quotedBody_clean V (fun b hb => ⟨(hclean b hb).1, (hclean b hb).2.1⟩)),
      Unquote_plain V hclean hvalid]
    rfl
  have hp : fieldPairs f = f.Names.map (fun n => (convertedKey n, V)) := by
    simp [fieldPairs, htag, hj, hV]
  refine ⟨hj, hp, ?_⟩
  rw [processField_eq, lookup_foldl_addEntry, habsent, hp]
  have hmem : (convertedKey name, V) ∈ f.Names.map (fun n => (convertedKey n, V)) :=
    List.mem_map.2 ⟨name, hn, rfl⟩
  obtain ⟨v2, hv2, hv2m⟩ := lookup_of_mem _ _ _ hmem
  obtain ⟨n2, _, hn2⟩ := List.mem_map.1 hv2m
  have : v2 = V := (congrArg Prod.snd hn2).symm
  rw [hv2, this]
  rfl

/-- Witness of C10, amended: the field `Name` tagged
`db:"n" json:"name,omitempty" yaml:"x"`. -/
theorem C10_whole_json_value_witness :
    jsonTagOf (rawLit (bytes "db:\"n\" json:\"name,omitempty\" yaml:\"x\"")) =
      bytes "name,omitempty" ∧
    fieldPairs (taggedField ["Name"] "db:\"n\" json:\"name,omitempty\" yaml:\"x\"") =
      (taggedField ["Name"] "db:\"n\" json:\"name,omitempty\" yaml:\"x\"").Names.map
        (fun n => (convertedKey n, bytes "name,omitempty")) ∧
    (processField (taggedField ["Name"] "db:\"n\" json:\"name,omitempty\" yaml:\"x\"")
      [(bytes "id", bytes "id")]).lookup (convertedKey (ident "Name")) =
      some (bytes "name,omitempty") :=
  C10_whole_json_value (taggedField ["Name"] "db:\"n\" json:\"name,omitempty\" yaml:\"x\"")
    [{ spaces := 0, key := bytes "db", body := bytes "n" }] 1 (bytes "name,omitempty")
    (bytes " yaml:\"x\"") (bytes "db:\"n\" json:\"name,omitempty\" yaml:\"x\"") (ident "Name")
    [(bytes "id", bytes "id")] (by decide) rfl (by decide)
    (by
      intro p hp
      rw [List.mem_singleton] at hp
      subst hp
      exact ⟨⟨by decide, by decide, by decide⟩, by decide⟩)
    (by decide) (by decide) (by decide) (by decide) (by decide)

end NameMapping
